import Mathlib

/-!
Verification development for the MOUSA constrained oracle generator
(`lib/oracle.js`) and its dictionary build script.

The JavaScript source is shallowly embedded: strings are Lean `String`s
processed as their character lists, JS numbers that hold word counts and
sampling weights are rationals (`ℚ`), and the two platform effects the code
uses — `Math.random()` and the external Ollama generator — are passed in as
explicit parameters (`us : Nat → ℚ`, one uniform draw per call, and
`gen : Nat → Except String String`, one response or error per attempt).
`Math.pow` is likewise passed as an explicit function parameter `pow`
wherever the code applies it to a runtime-chosen exponent; the one place
where the claim under study is *about* `Math.pow` itself (temperature
reshaping) is modelled separately over `ℝ` with real exponentiation.
-/

namespace Mousa

/-! ## Tokenizer (`normalizeText` / `tokenize` in oracle.js)

`normalizeText` lowercases and replaces every maximal run of non-letter
characters (`/[^\p{L}]+/gu`) with a space, then `tokenize` splits on
whitespace discarding empty pieces.  The composite effect is: the tokens of
`s` are the maximal runs of letters of the lowercased `s`.  `Char.isAlpha`
stands in for the Unicode letter class `\p{L}`; the two agree on all ASCII
inputs considered here. -/

def tokenizeAux : List Char → List Char → List (List Char)
  | [], acc => if acc = [] then [] else [acc.reverse]
  | c :: rest, acc =>
    if c.isAlpha then tokenizeAux rest (c :: acc)
    else if acc = [] then tokenizeAux rest []
    else acc.reverse :: tokenizeAux rest []

def tokenize (s : String) : List String :=
  (tokenizeAux (s.data.map Char.toLower) []).map (fun cs => String.mk cs)

/-- Model of `Array.from(new Set(tokens))`: JS `Set` iteration order is
insertion order, so this keeps the first occurrence of each element. -/
def uniqFirst (l : List String) : List String :=
  l.foldl (fun acc t => if t ∈ acc then acc else acc ++ [t]) []

/-- Model of `capitalizeSentence` in oracle.js: empty string returned as is, otherwise
first character upper-cased and a period appended. -/
def capitalizeSentence (s : String) : String :=
  match s.data with
  | [] => s
  | c :: rest => String.mk (c.toUpper :: rest) ++ "."

/-! ## Weighted sampler (`cumulativeFromArray`, `sampleIndexFromCum`) -/

/-- The loop body of `cumulativeFromArray`: running sum `s`, emitting one
cumulative value per weight. -/
def cumAux : List ℚ → ℚ → List ℚ
  | [], _ => []
  | a :: rest, s => (s + a) :: cumAux rest (s + a)

/-- Model of `cumulativeFromArray(arr)`, returning the pair of cum and total; the final running sum
equals the list sum. -/
def cumulativeFromArray (arr : List ℚ) : List ℚ × ℚ :=
  (cumAux arr 0, arr.sum)

/-- The `while (lo < hi)` binary search of `sampleIndexFromCum`, with an
explicit fuel argument standing in for the loop's (always-sufficient)
iteration bound; `cum.length` fuel is enough because `hi - lo` shrinks on
every iteration. -/
def bsearchGo (cum : List ℚ) (r : ℚ) : Nat → Nat → Nat → Nat
  | 0, lo, _ => lo
  | fuel + 1, lo, hi =>
    if lo < hi then
      let mid := (lo + hi) / 2
      if r < cum.getD mid 0 then bsearchGo cum r fuel lo mid
      else bsearchGo cum r fuel (mid + 1) hi
    else lo

/-- Model of `sampleIndexFromCum(cumArr, total)`: the JS draws `r = Math.random() * total`
internally; here `u` is the `Math.random()` value, passed explicitly. -/
def sampleIndexFromCum (cumArr : List ℚ) (total u : ℚ) : Nat :=
  bsearchGo cumArr (u * total) cumArr.length 0 (cumArr.length - 1)

/-- The sampling loop inside `predict`'s `sample` branch
(`for (let i = tokens.length; tokens.length < length; i++)`), at the level of
drawn indices: `k` is the number of slots still to fill, `step` indexes into
the stream of `Math.random()` values, and the drawn index's weight is zeroed
before the next draw.  Stops early when the remaining total weight is `≤ 0`. -/
def sampleIdxLoop (modW : List ℚ) (us : Nat → ℚ) (step : Nat) : Nat → List Nat
  | 0 => []
  | k + 1 =>
    let ct := cumulativeFromArray modW
    if ct.2 ≤ 0 then []
    else
      let idx := sampleIndexFromCum ct.1 ct.2 (us step)
      idx :: sampleIdxLoop (modW.set idx 0) us (step + 1) k

/-! ## Shared prompt handling in `predict`

Both local modes first push the first (truthy) prompt token as a seed, then
append every remaining `promptUnique` word that is nonempty and not already
present (`if (p && !tokens.includes(p)) tokens.push(p)`). -/

/-- Model of `Math.max` on two rationals. -/
def jsMax (a b : ℚ) : ℚ := if a ≤ b then b else a

def pushUnique (acc : List String) (p : String) : List String :=
  if p ≠ "" ∧ p ∉ acc then acc ++ [p] else acc

/-- The `for (const t of promptUnique) { if (t) { seed = t; break; } }` scan:
the first nonempty prompt token, if any, becomes the singleton initial token
list. -/
def promptSeedTokens (promptUnique : List String) : List String :=
  match promptUnique.find? (fun t => t ≠ "") with
  | some s => [s]
  | none => []

/-- Token list after the seed push and the `promptUnique` pushes, shared by
the `mostLikely` and `sample` branches of `predict`. -/
def promptTokens1 (promptUnique : List String) : List String :=
  promptUnique.foldl pushUnique (promptSeedTokens promptUnique)

/-! ## `Array.prototype.sort` model

JS `sort(cmp)` is a stable sort whose result is ordered by the sign of the
comparator.  Insertion sort inserting each earlier element in front of the
first later element `b` with `cmp a b ≤ 0` is exactly such a stable sort. -/

def jsSortBy {α : Type} (cmp : α → α → ℚ) (l : List α) : List α :=
  List.insertionSort (fun x y => cmp x y ≤ 0) l

/-- Model of `counts.map((c, i) => i).sort((a, b) => counts[b] - counts[a])` in the
`mostLikely` branch: the vocabulary indices in descending-count order. -/
def rankedIdxs (counts : List ℚ) : List Nat :=
  jsSortBy (fun a b => counts.getD b 0 - counts.getD a 0) (List.range counts.length)

/-- The fill loop of the `mostLikely` branch:
`for (let i = 0; tokens.length < length && i < idxs.length; i++)` pushing
`words[idxs[i]]` when not already present. -/
def rankedFill (words : List String) (tokens : List String) (idxs : List Nat)
    (length : Nat) : List String :=
  match idxs with
  | [] => tokens
  | i :: rest =>
    if tokens.length < length then
      let w := words.getD i ""
      if w ∈ tokens then rankedFill words tokens rest length
      else rankedFill words (tokens ++ [w]) rest length
    else tokens

/-! ## Generation results and options -/

structure GenResult where
  text : String
  tokens : List String
  warning : Option String := none
deriving Repr, DecidableEq

/-- The fields of the `opts` object that `predict` reads.  A missing field is
`none`; JS `undefined` checks map to `Option` matches. -/
structure Opts where
  length : Option Int := none
  size : Option String := none
  mode : Option String := none
  temperature : Option ℚ := none

/-- The `length` computation of `predict`: explicit `opts.length` goes through
`Math.max(1, parseInt(opts.length || 12, 10))` (`0` is falsy, hence `12`),
otherwise the `size` default (140 for `"long"`, 12 for `"short"`). -/
def resolveLength (opts : Opts) : Nat :=
  match opts.length with
  | some n => (max 1 (if n = 0 then 12 else n)).toNat
  | none => if opts.size.getD "short" = "long" then 140 else 12

/-- Model of `typeof opts.temperature === "number" ? opts.temperature : 0.7`. -/
def resolveTemperature (opts : Opts) : ℚ :=
  opts.temperature.getD (7 / 10)

/-! ## The `mostLikely` (ranked) branch of `predict` -/

def predictMostLikely (words : List String) (counts : List ℚ) (prompt : String)
    (length : Nat) : GenResult :=
  let promptUnique := uniqFirst (tokenize prompt)
  let tokens := rankedFill words (promptTokens1 promptUnique) (rankedIdxs counts) length
  { text := capitalizeSentence (String.intercalate " " tokens), tokens := tokens }

/-! ## The `sample` branch of `predict`

`pow` is the explicit model of `Math.pow`; the code applies it to each count
with exponent `tempExp = 1 / Math.max(1e-8, temperature)`.  If the seed token
occurs in the dictionary (`words.indexOf(seed) >= 0`) its weight is zeroed
before sampling so the seed is not redrawn. -/

def predictSampleMode (words : List String) (counts : List ℚ) (pow : ℚ → ℚ → ℚ)
    (us : Nat → ℚ) (prompt : String) (length : Nat) (temperature : ℚ) : GenResult :=
  let promptUnique := uniqFirst (tokenize prompt)
  let tempExp := 1 / jsMax (1 / 100000000) temperature
  let modWeights := counts.map (fun c => pow c tempExp)
  let modW :=
    match (promptSeedTokens promptUnique).head? with
    | some s =>
      match List.findIdx? (fun w => w = s) words with
      | some i => modWeights.set i 0
      | none => modWeights
    | none => modWeights
  let tokens1 := promptTokens1 promptUnique
  let idxs := sampleIdxLoop modW us 0 (length - tokens1.length)
  let tokens := tokens1 ++ idxs.map (fun i => words.getD i "")
  { text := capitalizeSentence (String.intercalate " " tokens), tokens := tokens }

/-! ## The `llm` (delegated) branch of `predict` -/

/-- Splitting a character list on single occurrences of `sep`; base model for
the regex splits. -/
def splitCharSingle (sep : Char) : List Char → List (List Char)
  | [] => [[]]
  | c :: rest =>
    if c = sep then [] :: splitCharSingle sep rest
    else
      match splitCharSingle sep rest with
      | [] => [[c]]
      | w :: ws => (c :: w) :: ws

/-- Splitting on maximal runs of `sep`, as the regexes `/\t+/` and `/\n+/` do:
single-separator chunks with the empty chunks that arise between consecutive
separators dropped (the leading and trailing chunks are kept, matching JS
`String.prototype.split` on a one-or-more quantified pattern). -/
def splitCharRuns (sep : Char) (cs : List Char) : List (List Char) :=
  match splitCharSingle sep cs with
  | [] => []
  | [x] => [x]
  | x :: rest => x :: ((rest.dropLast.filter (fun w => w ≠ [])) ++ [rest.getLastD []])

/-- JS `String.prototype.trim` on a character list. -/
def trimChars (cs : List Char) : List Char :=
  ((cs.dropWhile Char.isWhitespace).reverse.dropWhile Char.isWhitespace).reverse

def trimString (s : String) : String := String.mk (trimChars s.data)

/-- Model of `raw.replace(/\n+/g, " ")`: every maximal newline run becomes one space. -/
def collapseNewlines (s : String) : String :=
  String.intercalate " " ((splitCharRuns '\n' s.data).map (fun cs => String.mk cs))

/-- The text the `llm` branch validates:
`response.response.trim()` then `.replace(/\n+/g, " ").trim()`. -/
def llmText (response : String) : String :=
  trimString (collapseNewlines (trimString response))

/-- One validation step of the `llm` branch: tokenize the cleaned response,
filter the tokens outside the base vocabulary set (`allowedSet`, built as
`new Set(words)`), and accept iff no bad token exists and at least one token
was produced. -/
def llmAttempt (words : List String) (response : String) : Option GenResult :=
  let toks := tokenize (llmText response)
  let bad := toks.filter (fun t => ¬ words.contains t)
  if bad = [] ∧ 0 < toks.length then
    some { text := capitalizeSentence (String.intercalate " " toks), tokens := toks,
           warning := none }
  else none

/-- The `for (let attempt = 1; attempt <= maxAttempts; attempt++)` loop with
`maxAttempts = 3`.  `fallback` is the result of the recursive
`predict(prompt, { length, mode: "sample", temperature })` call; `gen a` is
the external generator's behaviour on attempt `a`.  The second component
counts the attempts actually made.  `k` counts the remaining attempts, so the
initial call uses `attempt = 1`, `k = 3`; the `k = 0` case is unreachable
from there because both branches of the final attempt return. -/
def llmGo (words : List String) (gen : Nat → Except String String)
    (fallback : GenResult) (attempt : Nat) : Nat → GenResult × Nat
  | 0 => ({ text := "", tokens := [], warning := none }, 0)
  | k + 1 =>
    match gen attempt with
    | .error e => ({ fallback with warning := some ("LLM error: " ++ e) }, attempt)
    | .ok raw =>
      match llmAttempt words raw with
      | some res => (res, attempt)
      | none =>
        if attempt < 3 then llmGo words gen fallback (attempt + 1) k
        else
          ({ fallback with
              warning := some "LLM did not adhere to vocabulary constraints; returned fallback sampled prediction." },
            attempt)

/-! ## `predict` -/

/-- Model of `predict(prompt, opts)`.  Module state (`words`, `counts`) and platform
effects (`Math.pow`, `Math.random`, the Ollama client) are explicit
parameters.  Throwing is modelled by `Except.error`.  The delegated branch's
fallback is the source's recursive `predict(prompt, {length, mode: "sample",
temperature})` call, which resolves to exactly
`predictSampleMode words counts pow us prompt length temperature`
(see `predict_sample_call`). -/
def predict (words : List String) (counts : List ℚ) (pow : ℚ → ℚ → ℚ)
    (us : Nat → ℚ) (gen : Nat → Except String String) (prompt : String)
    (opts : Opts) : Except String GenResult :=
  let mode := opts.mode.getD "llm"
  let length := resolveLength opts
  let temperature := resolveTemperature opts
  if words.length = 0 then .error "Oracle: dictionary not loaded or empty"
  else if mode = "mostLikely" then .ok (predictMostLikely words counts prompt length)
  else if mode = "sample" then
    .ok (predictSampleMode words counts pow us prompt length temperature)
  else
    .ok (llmGo words gen
      (predictSampleMode words counts pow us prompt length temperature) 1 3).1

/-- Attempt count of the delegated branch (second component of the loop). -/
def llmAttemptsUsed (words : List String) (counts : List ℚ) (pow : ℚ → ℚ → ℚ)
    (us : Nat → ℚ) (gen : Nat → Except String String) (prompt : String)
    (opts : Opts) : Nat :=
  (llmGo words gen
    (predictSampleMode words counts pow us prompt (resolveLength opts)
      (resolveTemperature opts)) 1 3).2

/-! ## Dictionary loader (`loadDictionary` in oracle.js)

The loader walks the file's lines.  Empty lines are falsy and skipped; lines
whose trimmed form starts with `#` are skipped; remaining lines are split on
`/\t+/`; with at least two parts and a nonempty trimmed word, the word and
`parseInt(count, 10) || 1` are appended to the parallel arrays. -/

/-- Value of the longest leading digit prefix, `none` when there is none
(`parseInt` yields `NaN` in that case). -/
def digitsVal (cs : List Char) : Option Nat :=
  let ds := cs.takeWhile Char.isDigit
  if ds = [] then none
  else some (ds.foldl (fun acc c => acc * 10 + (c.toNat - '0'.toNat)) 0)

/-- JS `parseInt(s, 10)`: skip leading whitespace, optional sign, then the
longest digit prefix; `none` models `NaN`. -/
def jsParseInt (s : String) : Option Int :=
  match s.data.dropWhile Char.isWhitespace with
  | '-' :: rest => (digitsVal rest).map (fun n => -(n : Int))
  | '+' :: rest => (digitsVal rest).map (fun n => (n : Int))
  | cs => (digitsVal cs).map (fun n => (n : Int))

/-- The `|| 1` in `parseInt(parts[1].trim(), 10) || 1`: `NaN` (= `none`) and
`0` are falsy, so both become `1`. -/
def jsOrOne : Option Int → Int
  | none => 1
  | some n => if n = 0 then 1 else n

/-- Whether the trimmed line starts with `#`
(`line.trim().startsWith("#")`). -/
def startsWithHash : List Char → Bool
  | '#' :: _ => true
  | _ => false

/-- Processing of one line of the dictionary file; the state is the pair of
parallel arrays `(words, counts)`. -/
def loadStep (st : List String × List Int) (line : String) : List String × List Int :=
  if line = "" then st
  else if startsWithHash (trimChars line.data) then st
  else
    match splitCharRuns '\t' line.data with
    | p0 :: p1 :: _ =>
      let w := trimChars p0
      if w ≠ [] then
        (st.1 ++ [String.mk w], st.2 ++ [jsOrOne (jsParseInt (String.mk (trimChars p1)))])
      else st
    | _ => st

def loadDictionary (lines : List String) : List String × List Int :=
  lines.foldl loadStep ([], [])

/-! ## Dictionary builder (the `passages` build script)

The script tokenizes `iliad.txt` with the same normalization as the oracle,
tallies counts into a plain object (key insertion order = first occurrence),
sorts the keys with `(a, b) => counts[b] - counts[a] || a.localeCompare(b)`,
keeps words with `count >= 10` and writes `word\tcount` lines in that order.
`localeCompare` is modelled as codepoint-lexicographic comparison. -/

def strCmp (a b : String) : ℚ :=
  if a < b then -1 else if b < a then 1 else 0

/-- The key comparator: count difference when nonzero (`||`), else
`localeCompare`. -/
def dictCmp (toks : List String) (a b : String) : ℚ :=
  let d : ℚ := (toks.count b : ℚ) - (toks.count a : ℚ)
  if d ≠ 0 then d else strCmp a b

/-- Model of `Object.keys(counts).sort(...)`: first-occurrence key order, stably
sorted by the comparator. -/
def buildKeys (toks : List String) : List String :=
  jsSortBy (dictCmp toks) (uniqFirst toks)

/-- The `selected` array: keys with count at least 10, paired with their
counts, in sorted key order — the data lines of the serialized file. -/
def dictEntries (corpus : String) : List (String × Nat) :=
  let toks := tokenize corpus
  ((buildKeys toks).filter (fun w => 10 ≤ toks.count w)).map
    (fun w => (w, toks.count w))

/-! ## Temperature reshaping over ℝ (lines 166–167 of oracle.js)

For the numerical claim about `Math.pow` itself, the reshaping
`counts.map(c => Math.pow(c, 1 / Math.max(1e-8, temperature)))` is modelled
over the reals with real exponentiation. -/

noncomputable def reshape (weights : List ℝ) (temperature : ℝ) : List ℝ :=
  weights.map (fun c => c ^ (1 / max (1 / 100000000 : ℝ) temperature))

/-- A concrete stand-in for `Math.pow` used to instantiate witnesses: it
agrees with `Math.pow` whenever the exponent is an integer, which is the only
case the concrete inputs below exercise (temperature 1 gives exponent 1). -/
def intPow (c e : ℚ) : ℚ := c ^ e.num

/-! ## Helper lemmas: tokenizer and prompt handling -/

theorem tokenizeAux_ne_nil (cs : List Char) :
    ∀ (acc : List Char), ∀ w ∈ tokenizeAux cs acc, w ≠ [] := by
  induction cs with
  | nil =>
    intro acc w hw
    simp only [tokenizeAux] at hw
    split at hw
    · simp at hw
    · rename_i hacc
      simp only [List.mem_singleton] at hw
      subst hw
      simpa using hacc
  | cons c rest ih =>
    intro acc w hw
    simp only [tokenizeAux] at hw
    split at hw
    · exact ih _ w hw
    · split at hw
      · exact ih _ w hw
      · rename_i hacc
        rcases List.mem_cons.mp hw with h | h
        · subst h
          simpa using hacc
        · exact ih _ w h

theorem tokenize_mem_ne (s : String) : ∀ t ∈ tokenize s, t ≠ "" := by
  intro t ht
  simp only [tokenize, List.mem_map] at ht
  obtain ⟨cs, hcs, rfl⟩ := ht
  have hne := tokenizeAux_ne_nil (s.data.map Char.toLower) [] cs hcs
  intro h
  exact hne (congrArg String.data h)

theorem uniqFirst_go (l : List String) :
    ∀ acc : List String, acc.Nodup →
      (l.foldl (fun acc t => if t ∈ acc then acc else acc ++ [t]) acc).Nodup ∧
      ∀ t ∈ l.foldl (fun acc t => if t ∈ acc then acc else acc ++ [t]) acc,
        t ∈ acc ∨ t ∈ l := by
  induction l with
  | nil => intro acc h; exact ⟨h, fun t ht => Or.inl ht⟩
  | cons a rest ih =>
    intro acc hacc
    simp only [List.foldl_cons]
    by_cases hmem : a ∈ acc
    · rw [if_pos hmem]
      refine ⟨(ih acc hacc).1, fun t ht => ?_⟩
      rcases (ih acc hacc).2 t ht with h | h
      · exact Or.inl h
      · exact Or.inr (List.mem_cons_of_mem _ h)
    · rw [if_neg hmem]
      have hacc' : (acc ++ [a]).Nodup := by
        simpa [List.nodup_append] using ⟨hacc, hmem⟩
      refine ⟨(ih _ hacc').1, fun t ht => ?_⟩
      rcases (ih _ hacc').2 t ht with h | h
      · rcases List.mem_append.mp h with h | h
        · exact Or.inl h
        · simp only [List.mem_singleton] at h
          exact Or.inr (h ▸ List.mem_cons_self _ _)
      · exact Or.inr (List.mem_cons_of_mem _ h)

theorem uniqFirst_nodup (l : List String) : (uniqFirst l).Nodup :=
  (uniqFirst_go l [] List.nodup_nil).1

theorem uniqFirst_subset (l : List String) : ∀ t ∈ uniqFirst l, t ∈ l := by
  intro t ht
  rcases (uniqFirst_go l [] List.nodup_nil).2 t ht with h | h
  · simp at h
  · exact h

theorem foldl_pushUnique_append (l : List String) :
    ∀ acc : List String, l.Nodup → (∀ t ∈ l, t ≠ "") → (∀ t ∈ l, t ∉ acc) →
      l.foldl pushUnique acc = acc ++ l := by
  induction l with
  | nil => intro acc _ _ _; simp
  | cons a rest ih =>
    intro acc hN hne hdisj
    have ha : pushUnique acc a = acc ++ [a] := by
      rw [pushUnique, if_pos]
      exact ⟨hne a (List.mem_cons_self _ _), hdisj a (List.mem_cons_self _ _)⟩
    have hrest := ih (acc ++ [a]) (List.nodup_cons.mp hN).2
      (fun t ht => hne t (List.mem_cons_of_mem _ ht))
      (fun t ht => by
        intro hmem
        rcases List.mem_append.mp hmem with h | h
        · exact hdisj t (List.mem_cons_of_mem _ ht) h
        · simp only [List.mem_singleton] at h
          exact (List.nodup_cons.mp hN).1 (h ▸ ht))
    simp only [List.foldl_cons, ha, hrest, List.append_assoc, List.singleton_append]

theorem promptTokens1_eq (l : List String) (hN : l.Nodup) (hne : ∀ t ∈ l, t ≠ "") :
    promptTokens1 l = l := by
  cases l with
  | nil => rfl
  | cons a rest =>
    have hfind : promptSeedTokens (a :: rest) = [a] := by
      have : (a : String) ≠ "" := hne a (List.mem_cons_self _ _)
      simp [promptSeedTokens, List.find?_cons, this]
    rw [promptTokens1, hfind, List.foldl_cons]
    have ha : pushUnique [a] a = [a] := by
      simp [pushUnique]
    rw [ha, foldl_pushUnique_append rest [a] (List.nodup_cons.mp hN).2
      (fun t ht => hne t (List.mem_cons_of_mem _ ht))
      (fun t ht => by
        simp only [List.mem_singleton]
        intro h
        exact (List.nodup_cons.mp hN).1 (h ▸ ht))]
    rfl

theorem promptTokens1_tokenize (prompt : String) :
    promptTokens1 (uniqFirst (tokenize prompt)) = uniqFirst (tokenize prompt) :=
  promptTokens1_eq _ (uniqFirst_nodup _)
    (fun t ht => tokenize_mem_ne prompt t (uniqFirst_subset _ t ht))

/-! ## Helper lemmas: the ranked fill loop -/

theorem rankedFill_extends (words : List String) (idxs : List Nat) :
    ∀ (tokens : List String) (length : Nat),
      ∃ rest, rankedFill words tokens idxs length = tokens ++ rest := by
  induction idxs with
  | nil => intro tokens length; exact ⟨[], by simp [rankedFill]⟩
  | cons i rest ih =>
    intro tokens length
    simp only [rankedFill]
    split
    · split
      · exact ih tokens length
      · obtain ⟨r, hr⟩ := ih (tokens ++ [words.getD i ""]) length
        exact ⟨[words.getD i ""] ++ r, by rw [hr, List.append_assoc]⟩
    · exact ⟨[], by simp⟩

theorem rankedFill_of_le (words : List String) (idxs : List Nat)
    (tokens : List String) (length : Nat) (h : length ≤ tokens.length) :
    rankedFill words tokens idxs length = tokens := by
  cases idxs with
  | nil => rfl
  | cons i rest =>
    simp only [rankedFill]
    rw [if_neg (by omega)]

theorem rankedFill_length_le (words : List String) (idxs : List Nat) :
    ∀ (tokens : List String) (length : Nat),
      (rankedFill words tokens idxs length).length ≤ max tokens.length length := by
  induction idxs with
  | nil => intro tokens length; simp [rankedFill]
  | cons i rest ih =>
    intro tokens length
    simp only [rankedFill]
    split
    · split
      · exact le_trans (ih tokens length) (le_refl _)
      · refine le_trans (ih (tokens ++ [words.getD i ""]) length) ?_
        simp only [List.length_append, List.length_singleton]
        omega
    · simp

theorem rankedFill_nodup (words : List String) (idxs : List Nat) :
    ∀ (tokens : List String) (length : Nat), tokens.Nodup →
      (rankedFill words tokens idxs length).Nodup := by
  induction idxs with
  | nil => intro tokens length h; exact h
  | cons i rest ih =>
    intro tokens length h
    simp only [rankedFill]
    split
    · split
      · exact ih tokens length h
      · rename_i hmem
        refine ih _ length (List.nodup_append.mpr ⟨h, List.nodup_singleton _, ?_⟩)
        intro x hx hx'
        rw [List.mem_singleton] at hx'
        subst hx'
        exact hmem hx
    · exact h

/-! ## Helper lemmas: cumulative sums and binary search -/

theorem cumAux_length (l : List ℚ) : ∀ s, (cumAux l s).length = l.length := by
  induction l with
  | nil => intro s; rfl
  | cons a rest ih => intro s; simp [cumAux, ih]

theorem cumAux_getD (l : List ℚ) :
    ∀ (s : ℚ) (i : Nat), i < l.length →
      (cumAux l s).getD i 0 = s + (l.take (i + 1)).sum := by
  induction l with
  | nil => intro s i h; simp at h
  | cons a rest ih =>
    intro s i h
    cases i with
    | zero => simp [cumAux]
    | succ i =>
      simp only [cumAux, List.getD_cons_succ, List.take_succ_cons, List.sum_cons]
      rw [ih (s + a) i (by simpa using h)]
      ring

theorem mem_take_drop_nonneg (l : List ℚ) (h : ∀ x ∈ l, 0 ≤ x) (i j : Nat) :
    ∀ x ∈ (l.drop i).take j, 0 ≤ x := fun x hx =>
  h x (((List.take_sublist _ _).trans (List.drop_sublist _ _)).subset hx)

theorem sum_take_le (l : List ℚ) (h : ∀ x ∈ l, 0 ≤ x) (i j : Nat) (hij : i ≤ j) :
    (l.take i).sum ≤ (l.take j).sum := by
  have hj : j = i + (j - i) := by omega
  rw [hj, List.take_add, List.sum_append]
  have := List.sum_nonneg (mem_take_drop_nonneg l h i (j - i))
  linarith

theorem cumAux_mono (l : List ℚ) (h : ∀ x ∈ l, 0 ≤ x) (i j : Nat) (hij : i ≤ j)
    (hj : j < l.length) : (cumAux l 0).getD i 0 ≤ (cumAux l 0).getD j 0 := by
  rw [cumAux_getD l 0 i (lt_of_le_of_lt hij hj), cumAux_getD l 0 j hj]
  have := sum_take_le l h (i + 1) (j + 1) (by omega)
  linarith

theorem bsearchGo_spec (cum : List ℚ) (r : ℚ)
    (hmono : ∀ i j, i ≤ j → j < cum.length → cum.getD i 0 ≤ cum.getD j 0) :
    ∀ (fuel lo hi : Nat), lo ≤ hi → hi < cum.length → hi - lo ≤ fuel →
      r < cum.getD hi 0 → (∀ j, j < lo → cum.getD j 0 ≤ r) →
      lo ≤ bsearchGo cum r fuel lo hi ∧ bsearchGo cum r fuel lo hi ≤ hi ∧
        r < cum.getD (bsearchGo cum r fuel lo hi) 0 ∧
        ∀ j, j < bsearchGo cum r fuel lo hi → cum.getD j 0 ≤ r := by
  intro fuel
  induction fuel with
  | zero =>
    intro lo hi hle hlen hfuel hr hlo
    have : lo = hi := by omega
    subst this
    simp only [bsearchGo]
    exact ⟨le_refl _, le_refl _, hr, hlo⟩
  | succ fuel ih =>
    intro lo hi hle hlen hfuel hr hlo
    simp only [bsearchGo]
    split
    · rename_i hlt
      have hmid₁ : lo ≤ (lo + hi) / 2 := by omega
      have hmid₂ : (lo + hi) / 2 < hi := by omega
      split
      · rename_i hrmid
        obtain ⟨h1, h2, h3, h4⟩ := ih lo ((lo + hi) / 2) hmid₁
          (lt_trans hmid₂ hlen) (by omega) hrmid hlo
        exact ⟨h1, le_trans h2 (le_of_lt hmid₂), h3, h4⟩
      · rename_i hrmid
        push_neg at hrmid
        obtain ⟨h1, h2, h3, h4⟩ := ih ((lo + hi) / 2 + 1) hi (by omega) hlen
          (by omega) hr (fun j hj => le_trans
            (hmono j ((lo + hi) / 2) (by omega) (lt_trans hmid₂ hlen)) hrmid)
        exact ⟨le_trans (by omega) h1, h2, h3, h4⟩
    · rename_i hge
      have : lo = hi := by omega
      subst this
      exact ⟨le_refl _, le_refl _, hr, hlo⟩

theorem sampleIndexFromCum_pick (modW : List ℚ) (u : ℚ)
    (hw : ∀ x ∈ modW, 0 ≤ x) (hu0 : 0 ≤ u) (hu1 : u < 1) (hpos : 0 < modW.sum) :
    sampleIndexFromCum (cumAux modW 0) modW.sum u < modW.length ∧
      0 < modW.getD (sampleIndexFromCum (cumAux modW 0) modW.sum u) 0 := by
  have hne : modW ≠ [] := by
    intro h; rw [h] at hpos; simp at hpos
  have hlen : 0 < modW.length := List.length_pos.mpr hne
  have hclen : (cumAux modW 0).length = modW.length := cumAux_length modW 0
  simp only [sampleIndexFromCum, hclen]
  set r := u * modW.sum with hr
  have hr0 : 0 ≤ r := mul_nonneg hu0 (le_of_lt hpos)
  have hrlt : r < modW.sum := by
    calc r = u * modW.sum := hr
    _ < 1 * modW.sum := by
      exact mul_lt_mul_of_pos_right hu1 hpos
    _ = modW.sum := one_mul _
  have hlast : (cumAux modW 0).getD (modW.length - 1) 0 = modW.sum := by
    rw [cumAux_getD modW 0 (modW.length - 1) (by omega)]
    have : modW.length - 1 + 1 = modW.length := by omega
    rw [this, List.take_length]
    ring
  have hmono : ∀ i j, i ≤ j → j < (cumAux modW 0).length →
      (cumAux modW 0).getD i 0 ≤ (cumAux modW 0).getD j 0 := by
    intro i j hij hj
    exact cumAux_mono modW hw i j hij (by omega)
  obtain ⟨h1, h2, h3, h4⟩ := bsearchGo_spec (cumAux modW 0) r hmono
    modW.length 0 (modW.length - 1) (by omega) (by omega) (by omega)
    (by rw [hlast]; exact hrlt) (by omega)
  set m := bsearchGo (cumAux modW 0) r modW.length 0 (modW.length - 1)
  have hmlt : m < modW.length := by omega
  refine ⟨hmlt, ?_⟩
  have hsucc : ∀ i, i < modW.length →
      (modW.take (i + 1)).sum = (modW.take i).sum + modW.getD i 0 := by
    intro i hi
    rw [List.sum_take_succ modW i hi, List.getD_eq_getElem modW 0 hi]
  rcases Nat.eq_zero_or_pos m with hm | hmpos
  · have h0 := h3
    rw [hm, cumAux_getD modW 0 0 hlen, hsucc 0 hlen] at h0
    simp only [List.take_zero, List.sum_nil, zero_add] at h0
    rw [hm]
    linarith
  · obtain ⟨j, hm⟩ : ∃ j, m = j + 1 := ⟨m - 1, by omega⟩
    have hjlt : j + 1 < modW.length := by omega
    have hlt' := h3
    rw [hm, cumAux_getD modW 0 (j + 1) hjlt, hsucc (j + 1) hjlt] at hlt'
    have hle' := h4 j (by omega)
    rw [cumAux_getD modW 0 j (by omega)] at hle'
    rw [hm]
    linarith

theorem getD_set_zero_self (l : List ℚ) (i : Nat) (hi : i < l.length) :
    (l.set i 0).getD i 0 = 0 := by
  rw [List.getD_eq_getElem _ 0 (by simpa using hi)]
  exact List.getElem_set_self (by simpa using hi)

theorem getD_set_zero_ne (l : List ℚ) (i j : Nat) (hne : i ≠ j) :
    (l.set i 0).getD j 0 = l.getD j 0 := by
  by_cases hj : j < l.length
  · rw [List.getD_eq_getElem _ 0 (by simpa using hj), List.getD_eq_getElem _ 0 hj]
    exact List.getElem_set_ne hne (by simpa using hj)
  · rw [List.getD_eq_default _ 0 (by simpa using Nat.le_of_not_lt hj),
      List.getD_eq_default _ 0 (Nat.le_of_not_lt hj)]

theorem nonneg_set_zero (modW : List ℚ) (idx : Nat) (hw : ∀ x ∈ modW, 0 ≤ x) :
    ∀ x ∈ modW.set idx 0, 0 ≤ x := by
  intro x hx
  rcases List.mem_or_eq_of_mem_set hx with h | h
  · exact hw x h
  · rw [h]

/-- Core invariant of the sampling loop: the emitted indices are in range,
had strictly positive weight when the loop started, and are pairwise
distinct; a nonpositive total stops the loop immediately. -/
theorem sampleIdxLoop_spec (us : Nat → ℚ) (hus : ∀ n, 0 ≤ us n ∧ us n < 1) :
    ∀ (k : Nat) (modW : List ℚ) (step : Nat), (∀ x ∈ modW, 0 ≤ x) →
      (sampleIdxLoop modW us step k).Nodup ∧
        (∀ i ∈ sampleIdxLoop modW us step k,
          i < modW.length ∧ 0 < modW.getD i 0) ∧
        (modW.sum ≤ 0 → sampleIdxLoop modW us step k = []) := by
  intro k
  induction k with
  | zero => intro modW step _; exact ⟨List.nodup_nil, by simp [sampleIdxLoop], fun _ => rfl⟩
  | succ k ih =>
    intro modW step hw
    by_cases hpos : modW.sum ≤ 0
    · simp only [sampleIdxLoop, cumulativeFromArray]
      rw [if_pos hpos]
      exact ⟨List.nodup_nil, by simp, fun _ => rfl⟩
    · push_neg at hpos
      have hpick := sampleIndexFromCum_pick modW (us step) hw (hus step).1
        (hus step).2 hpos
      simp only [sampleIdxLoop, cumulativeFromArray]
      rw [if_neg (by linarith)]
      set idx := sampleIndexFromCum (cumAux modW 0) modW.sum (us step) with hidxdef
      obtain ⟨ihN, ihM, _⟩ := ih (modW.set idx 0) (step + 1) (nonneg_set_zero modW idx hw)
      have hmem_spec : ∀ i ∈ sampleIdxLoop (modW.set idx 0) us (step + 1) k,
          i < modW.length ∧ i ≠ idx ∧ 0 < modW.getD i 0 := by
        intro i hi
        obtain ⟨hlt, hgt⟩ := ihM i hi
        rw [List.length_set] at hlt
        have hne : i ≠ idx := by
          intro h
          rw [h, getD_set_zero_self modW idx hpick.1] at hgt
          exact lt_irrefl 0 hgt
        rw [getD_set_zero_ne modW idx i (fun h => hne h.symm)] at hgt
        exact ⟨hlt, hne, hgt⟩
      refine ⟨?_, ?_, fun h => absurd h (by linarith)⟩
      · exact List.nodup_cons.mpr ⟨fun hmem => (hmem_spec idx hmem).2.1 rfl, ihN⟩
      · intro i hi
        rcases List.mem_cons.mp hi with h | h
        · exact h ▸ ⟨hpick.1, hpick.2⟩
        · exact ⟨(hmem_spec i h).1, (hmem_spec i h).2.2⟩

/-! ## Helper lemmas: the two sort comparators -/

theorem rankedIdxs_sorted (counts : List ℚ) :
    List.Chain' (fun a b => counts.getD b 0 ≤ counts.getD a 0) (rankedIdxs counts) := by
  rw [rankedIdxs, jsSortBy]
  haveI : IsTotal Nat (fun x y => counts.getD y 0 - counts.getD x 0 ≤ 0) := by
    constructor
    intro a b
    rcases le_total (counts.getD b 0) (counts.getD a 0) with h | h
    · exact Or.inl (by simpa using h)
    · exact Or.inr (by simpa using h)
  haveI : IsTrans Nat (fun x y => counts.getD y 0 - counts.getD x 0 ≤ 0) := by
    constructor
    intro a b c hab hbc
    simp only [sub_nonpos] at hab hbc ⊢
    exact le_trans hbc hab
  have hs := List.sorted_insertionSort
    (fun x y => counts.getD y 0 - counts.getD x 0 ≤ 0) (List.range counts.length)
  exact List.Pairwise.chain' (hs.imp (fun h => by simpa [sub_nonpos] using h))

theorem dictCmp_le_iff (toks : List String) (a b : String) :
    dictCmp toks a b ≤ 0 ↔
      (toks.count b < toks.count a ∨ (toks.count a = toks.count b ∧ a ≤ b)) := by
  rw [dictCmp]
  split
  · rename_i hd
    have hne : toks.count a ≠ toks.count b := by
      intro h
      exact hd (by rw [h]; ring)
    constructor
    · intro h
      left
      have : (toks.count b : ℚ) < (toks.count a : ℚ) := lt_of_le_of_ne
        (by linarith) (by intro h'; exact hd (by rw [h']; ring))
      exact_mod_cast this
    · intro h
      rcases h with h | ⟨h, _⟩
      · have : (toks.count b : ℚ) < (toks.count a : ℚ) := by exact_mod_cast h
        linarith
      · exact absurd h hne
  · rename_i hd
    push_neg at hd
    have heq : toks.count a = toks.count b := by
      have : (toks.count a : ℚ) = (toks.count b : ℚ) := by linarith
      exact_mod_cast this
    rw [strCmp]
    constructor
    · intro h
      right
      refine ⟨heq, ?_⟩
      split at h
      · rename_i hab
        exact le_of_lt hab
      · split at h
        · norm_num at h
        · rename_i h1 h2
          exact le_of_not_lt h2
    · intro h
      split
      · norm_num
      · split
        · rename_i h1 h2
          exfalso
          rcases h with h' | ⟨_, h'⟩
          · omega
          · exact absurd h2 (not_lt.mpr h')
        · norm_num

theorem buildKeys_pairwise (toks : List String) :
    List.Pairwise (fun a b =>
      toks.count b < toks.count a ∨ (toks.count a = toks.count b ∧ a ≤ b))
      (buildKeys toks) := by
  rw [buildKeys, jsSortBy]
  haveI : IsTotal String (fun x y => dictCmp toks x y ≤ 0) := by
    constructor
    intro a b
    rw [dictCmp_le_iff, dictCmp_le_iff]
    rcases lt_trichotomy (toks.count a) (toks.count b) with h | h | h
    · right; left; exact h
    · rcases le_total a b with h' | h'
      · left; right; exact ⟨h, h'⟩
      · right; right; exact ⟨h.symm, h'⟩
    · left; left; exact h
  haveI : IsTrans String (fun x y => dictCmp toks x y ≤ 0) := by
    constructor
    intro a b c hab hbc
    rw [dictCmp_le_iff] at hab hbc ⊢
    rcases hab with h1 | ⟨h1, h1'⟩ <;> rcases hbc with h2 | ⟨h2, h2'⟩
    · left; omega
    · left; omega
    · left; omega
    · right; exact ⟨by omega, le_trans h1' h2'⟩
  have hs := List.sorted_insertionSort (fun x y => dictCmp toks x y ≤ 0) (uniqFirst toks)
  exact hs.imp (fun h => (dictCmp_le_iff toks _ _).mp h)

theorem buildKeys_nodup (toks : List String) : (buildKeys toks).Nodup := by
  rw [buildKeys, jsSortBy]
  exact (List.perm_insertionSort _ _).nodup_iff.mpr (uniqFirst_nodup toks)

/-! ## Helper lemmas: the delegated (`llm`) branch -/

theorem llmAttempt_none_of_bad (words : List String) (raw : String) (t : String)
    (ht : t ∈ tokenize (llmText raw)) (hb : t ∉ words) :
    llmAttempt words raw = none := by
  rw [llmAttempt, if_neg]
  intro ⟨hnil, _⟩
  have : t ∈ (tokenize (llmText raw)).filter (fun t => ¬ words.contains t) := by
    rw [List.mem_filter]
    exact ⟨ht, by simpa using hb⟩
  rw [hnil] at this
  simp at this

theorem llmAttempt_isSome_iff (words : List String) (raw : String) :
    (llmAttempt words raw).isSome = true ↔
      (tokenize (llmText raw) ≠ [] ∧ ∀ t ∈ tokenize (llmText raw), t ∈ words) := by
  rw [llmAttempt]
  split
  · rename_i h
    obtain ⟨hnil, hlen⟩ := h
    simp only [Option.isSome_some, true_iff]
    constructor
    · intro h'
      rw [h'] at hlen
      simp at hlen
    · intro t ht
      by_contra hb
      have : t ∈ (tokenize (llmText raw)).filter (fun t => ¬ words.contains t) := by
        rw [List.mem_filter]
        exact ⟨ht, by simpa using hb⟩
      rw [hnil] at this
      simp at this
  · rename_i h
    simp only [Option.isSome_none, Bool.false_eq_true, false_iff, not_and]
    intro hne hall
    apply h
    constructor
    · rw [List.filter_eq_nil_iff]
      intro t ht
      simpa using hall t ht
    · exact List.length_pos.mpr hne

theorem llmAttempt_some_spec (words : List String) (raw : String) (res : GenResult)
    (h : llmAttempt words raw = some res) :
    res.warning = none ∧ ∀ t ∈ res.tokens, t ∈ words := by
  rw [llmAttempt] at h
  split at h
  · rename_i hc
    obtain ⟨hnil, _⟩ := hc
    injection h with h
    subst h
    refine ⟨rfl, ?_⟩
    intro t ht
    by_contra hb
    have : t ∈ (tokenize (llmText raw)).filter (fun t => ¬ words.contains t) := by
      rw [List.mem_filter]
      exact ⟨ht, by simpa using hb⟩
    rw [hnil] at this
    simp at this
  · exact absurd h (by simp)

theorem llmGo_warning_none (words : List String) (gen : Nat → Except String String)
    (fb : GenResult) :
    ∀ (k attempt : Nat) (r : GenResult) (n : Nat),
      llmGo words gen fb attempt k = (r, n) → r.warning = none →
        ∀ t ∈ r.tokens, t ∈ words := by
  intro k
  induction k with
  | zero =>
    intro attempt r n h _
    rw [llmGo] at h
    injection h with h1 _
    subst h1
    intro t ht
    simp at ht
  | succ k ih =>
    intro attempt r n h hwarn
    rw [llmGo] at h
    split at h
    · rename_i e he
      injection h with h1 _
      subst h1
      simp at hwarn
    · rename_i raw hraw
      split at h
      · rename_i res hres
        injection h with h1 _
        subst h1
        exact (llmAttempt_some_spec words raw res hres).2
      · split at h
        · exact ih _ r n h hwarn
        · injection h with h1 _
          subst h1
          simp at hwarn

theorem llmGo_all_bad (words : List String) (gen : Nat → Except String String)
    (fb : GenResult)
    (h : ∀ a, 1 ≤ a → a ≤ 3 → ∃ raw, gen a = Except.ok raw ∧ llmAttempt words raw = none) :
    llmGo words gen fb 1 3 =
      ({ fb with warning := some "LLM did not adhere to vocabulary constraints; returned fallback sampled prediction." }, 3) := by
  obtain ⟨r1, hg1, ha1⟩ := h 1 (by omega) (by omega)
  obtain ⟨r2, hg2, ha2⟩ := h 2 (by omega) (by omega)
  obtain ⟨r3, hg3, ha3⟩ := h 3 (by omega) (by omega)
  rw [llmGo, hg1]
  norm_num [ha1]
  rw [llmGo, hg2]
  norm_num [ha2]
  rw [llmGo, hg3]
  norm_num [ha3]

theorem llmGo_first_error (words : List String) (gen : Nat → Except String String)
    (fb : GenResult) (e : String) (h : gen 1 = Except.error e) :
    llmGo words gen fb 1 3 = ({ fb with warning := some ("LLM error: " ++ e) }, 1) := by
  rw [llmGo, h]

/-- The source's recursive fallback call
`predict(prompt, { length, mode: "sample", temperature })` evaluates to the
direct `predictSampleMode` call used in the embedding of the `llm` branch. -/
theorem predict_sample_call (words : List String) (counts : List ℚ)
    (pow : ℚ → ℚ → ℚ) (us : Nat → ℚ) (gen : Nat → Except String String)
    (prompt : String) (length : Nat) (hlen : 1 ≤ length) (temperature : ℚ)
    (hw : words ≠ []) :
    predict words counts pow us gen prompt
      { length := some (length : Int), mode := some "sample",
        temperature := some temperature : Opts } =
      .ok (predictSampleMode words counts pow us prompt length temperature) := by
  have hres : resolveLength
      { length := some (length : Int), mode := some "sample",
        temperature := some temperature : Opts } = length := by
    rw [resolveLength]
    simp only
    rw [if_neg (by omega)]
    omega
  rw [predict]
  simp only [hres]
  rw [if_neg (by simpa using hw)]
  norm_num [resolveTemperature]
  intro h
  exact absurd h (by decide)


/-- A pair of indices in order is a sublist of `List.range n`. -/
theorem pair_sublist_range (a b : Nat) :
    ∀ n, a < b → b < n → List.Sublist [a, b] (List.range n) := by
  intro n
  induction n with
  | zero => intro _ h; omega
  | succ n ih =>
    intro hab hb
    rw [List.range_succ]
    by_cases hbn : b < n
    · exact (ih hab hbn).trans (List.sublist_append_left _ _)
    · have hbe : b = n := by omega
      subst hbe
      have h1 : List.Sublist [a] (List.range b) :=
        List.singleton_sublist.mpr (List.mem_range.mpr hab)
      simpa using List.Sublist.append h1 (List.Sublist.refl [b])

/-- If the generator's first `a - 1` outputs are rejected and attempt `a`
errors, the loop stops at attempt `a` with the error warning. -/
theorem llmGo_error_at (words : List String) (gen : Nat → Except String String)
    (fb : GenResult) (a : Nat) (e : String) (h1 : 1 ≤ a) (h3 : a ≤ 3)
    (hrej : ∀ b, 1 ≤ b → b < a → ∃ raw, gen b = Except.ok raw ∧ llmAttempt words raw = none)
    (he : gen a = Except.error e) :
    llmGo words gen fb 1 3 = ({ fb with warning := some ("LLM error: " ++ e) }, a) := by
  have ha : a = 1 ∨ a = 2 ∨ a = 3 := by omega
  rcases ha with rfl | rfl | rfl
  · rw [llmGo, he]
  · obtain ⟨r1, hg1, ha1⟩ := hrej 1 (by omega) (by omega)
    rw [llmGo, hg1]
    norm_num [ha1]
    rw [llmGo, he]
  · obtain ⟨r1, hg1, ha1⟩ := hrej 1 (by omega) (by omega)
    obtain ⟨r2, hg2, ha2⟩ := hrej 2 (by omega) (by omega)
    rw [llmGo, hg1]
    norm_num [ha1]
    rw [llmGo, hg2]
    norm_num [ha2]
    rw [llmGo, he]

/-- C7: in the serialized dictionary the data entries are strictly descending
by count, with ties broken by ascending lexicographic word order (for
consecutive entries `(w1,c1)`, `(w2,c2)`: `c1 > c2`, or `c1 = c2` and
`w1 <= w2`), and the words are pairwise distinct. -/
theorem C7_dictionary_ordering (corpus : String) :
    List.Chain' (fun e1 e2 : String × Nat =>
      e2.2 < e1.2 ∨ (e1.2 = e2.2 ∧ e1.1 ≤ e2.1)) (dictEntries corpus) ∧
    ((dictEntries corpus).map Prod.fst).Nodup := by
  rw [dictEntries]
  constructor
  · apply List.Pairwise.chain'
    rw [List.pairwise_map]
    exact (buildKeys_pairwise (tokenize corpus)).sublist (List.filter_sublist _)
  · have : ((((buildKeys (tokenize corpus)).filter
        (fun w => 10 ≤ (tokenize corpus).count w)).map
          (fun w => (w, (tokenize corpus).count w))).map Prod.fst) =
        ((buildKeys (tokenize corpus)).filter
          (fun w => 10 ≤ (tokenize corpus).count w)) := by
      rw [List.map_map]
      exact List.map_id _
    rw [this]
    exact (buildKeys_nodup (tokenize corpus)).filter _

/-- C8 counterexample: on the line `"foo\t0"` the count parses successfully
(to 0), yet the stored count is 1 — so defaulting to 1 does not happen
exactly when parsing fails, contrary to the claim. -/
theorem C8_counterexample :
    loadDictionary ["foo\t0"] = (["foo"], [1]) ∧
    jsParseInt "0" = some 0 ∧ (0 : Int) ≠ 1 := by
  refine ⟨by decide, by decide, by decide⟩

/-- C8 (amended): the loader processes the file line by line, skipping empty
lines, lines whose trimmed form starts with `#`, lines without a second
tab-separated field, and lines with an empty trimmed word; a well-formed line
appends the trimmed word and its count to the parallel arrays, where the
count defaults to 1 when `parseInt` fails **or returns the falsy value 0**
(`parseInt(...) || 1`), and otherwise is the parsed integer. -/
theorem C8_loader_behavior :
    (∀ st : List String × List Int, loadStep st "" = st) ∧
    (∀ (st : List String × List Int) (line : String),
      startsWithHash (trimChars line.data) = true → loadStep st line = st) ∧
    (∀ (st : List String × List Int) (line : String),
      (splitCharRuns '\t' line.data).length < 2 → loadStep st line = st) ∧
    (∀ (st : List String × List Int) (line : String) (p0 p1 : List Char)
      (rest : List (List Char)), splitCharRuns '\t' line.data = p0 :: p1 :: rest →
      trimChars p0 = [] → loadStep st line = st) ∧
    (∀ (st : List String × List Int) (line : String) (p0 p1 : List Char)
      (rest : List (List Char)), line ≠ "" →
      startsWithHash (trimChars line.data) = false →
      splitCharRuns '\t' line.data = p0 :: p1 :: rest → trimChars p0 ≠ [] →
      loadStep st line = (st.1 ++ [String.mk (trimChars p0)],
        st.2 ++ [jsOrOne (jsParseInt (String.mk (trimChars p1)))])) ∧
    (∀ s : String, (jsParseInt s = none → jsOrOne (jsParseInt s) = 1) ∧
      (jsParseInt s = some 0 → jsOrOne (jsParseInt s) = 1) ∧
      (∀ n : Int, jsParseInt s = some n → n ≠ 0 → jsOrOne (jsParseInt s) = n)) ∧
    (∀ lines : List String, loadDictionary lines = lines.foldl loadStep ([], [])) := by
  refine ⟨?_, ?_, ?_, ?_, ?_, ?_, ?_⟩
  · intro st
    rw [loadStep, if_pos rfl]
  · intro st line hhash
    rw [loadStep]
    split
    · rfl
    · simp [hhash]
  · intro st line hlt
    rw [loadStep]
    split
    · rfl
    · split
      · rfl
      · split
        · rename_i p0 p1 rest hsplit
          rw [hsplit] at hlt
          simp only [List.length_cons] at hlt
          omega
        · rfl
  · intro st line p0 p1 rest hsplit hw
    rw [loadStep]
    split
    · rfl
    · split
      · rfl
      · split
        · rename_i q0 q1 qrest hsplit'
          rw [hsplit'] at hsplit
          injection hsplit with h1 h2
          injection h2 with h2 _
          rw [if_neg (by rw [h1, hw]; simp)]
        · rfl
  · intro st line p0 p1 rest hline hhash hsplit hw
    rw [loadStep, if_neg hline, if_neg (by rw [hhash]; simp)]
    split
    · rename_i q0 q1 qrest hsplit'
      rw [hsplit'] at hsplit
      injection hsplit with h1 h2
      injection h2 with h2 _
      rw [h1, h2, if_pos hw]
    · rename_i hno
      exact (hno p0 p1 rest hsplit).elim
  · intro s
    refine ⟨fun h => by rw [jsOrOne.eq_def, h], fun h => by rw [jsOrOne.eq_def, h]; rfl,
      fun n h hn => by rw [jsOrOne.eq_def, h]; simp [hn]⟩
  · intro lines
    rfl

/-- C8 witness: a well-formed line appends its trimmed word and parsed
count. -/
theorem C8_witness : loadStep ([], []) "word\t7" = (["word"], [7]) := by
  have h := C8_loader_behavior.2.2.2.2.1 ([], []) "word\t7"
    ['w', 'o', 'r', 'd'] ['7'] [] (by decide) (by decide) (by decide) (by decide)
  rw [h]
  decide

end Mousa

namespace Mousa

/-! ## Claim theorems -/

/-- C2: if the Vocabulary is empty (zero loaded words), `predict` fails with
the explicit vocabulary-unavailable error
(`"Oracle: dictionary not loaded or empty"`) for every seed phrase and
options, and never returns a generation result. -/
theorem C2_empty_vocab_error (counts : List ℚ) (pow : ℚ → ℚ → ℚ) (us : Nat → ℚ)
    (gen : Nat → Except String String) (prompt : String) (opts : Opts) :
    predict [] counts pow us gen prompt opts =
      Except.error "Oracle: dictionary not loaded or empty" ∧
    ∀ r : GenResult, predict [] counts pow us gen prompt opts ≠ Except.ok r := by
  constructor
  · rw [predict]
    simp
  · intro r h
    rw [predict] at h
    simp at h

/-- C4: ranked (`mostLikely`) output starts with all `promptUnique` words in
first-occurrence order, followed by vocabulary words in descending-frequency
order, skipping words already emitted, until the requested length is reached
or the vocabulary is exhausted; on the spec's concrete example the result is
exactly tokens `["tell", "of", "doom", "fate"]` with text
`"Tell of doom fate."`. -/
theorem C4_ranked_mode :
    (predictMostLikely ["fate", "doom", "glory"] [20, 15, 12] "tell of doom" 4 =
      { text := "Tell of doom fate.", tokens := ["tell", "of", "doom", "fate"] }) ∧
    ∀ (words : List String) (counts : List ℚ) (prompt : String) (length : Nat),
      (∃ rest, (predictMostLikely words counts prompt length).tokens =
        uniqFirst (tokenize prompt) ++ rest) ∧
      List.Chain' (fun a b => counts.getD b 0 ≤ counts.getD a 0) (rankedIdxs counts) ∧
      (predictMostLikely words counts prompt length).tokens.Nodup ∧
      (predictMostLikely words counts prompt length).tokens.length ≤
        max (uniqFirst (tokenize prompt)).length length ∧
      (∀ a b : Nat, a < b → b < counts.length → counts.getD a 0 = counts.getD b 0 →
        List.Sublist [a, b] (rankedIdxs counts)) := by
  constructor
  · have ht : tokenize "tell of doom" = ["tell", "of", "doom"] := by decide
    have hu : uniqFirst ["tell", "of", "doom"] = ["tell", "of", "doom"] := by decide
    have hp : promptTokens1 ["tell", "of", "doom"] = ["tell", "of", "doom"] := by decide
    have hr : rankedIdxs [20, 15, 12] = [0, 1, 2] := by
      norm_num [rankedIdxs, jsSortBy, List.insertionSort, List.orderedInsert, List.range,
        List.range.loop]
    have hf : rankedFill ["fate", "doom", "glory"] ["tell", "of", "doom"] [0, 1, 2] 4 =
        ["tell", "of", "doom", "fate"] := by decide
    have hc : capitalizeSentence (String.intercalate " " ["tell", "of", "doom", "fate"]) =
        "Tell of doom fate." := by decide
    rw [predictMostLikely, ht, hu, hp, hr, hf, hc]
  · intro words counts prompt length
    simp only [predictMostLikely, promptTokens1_tokenize]
    refine ⟨rankedFill_extends words (rankedIdxs counts) _ length,
      rankedIdxs_sorted counts,
      rankedFill_nodup words (rankedIdxs counts) _ length (uniqFirst_nodup _),
      rankedFill_length_le words (rankedIdxs counts) _ length, ?_⟩
    intro a b hab hb hcnt
    rw [rankedIdxs, jsSortBy]
    haveI : IsTrans Nat (fun x y => counts.getD y 0 - counts.getD x 0 ≤ 0) := by
      constructor
      intro x y z hxy hyz
      simp only [sub_nonpos] at hxy hyz ⊢
      exact le_trans hyz hxy
    exact List.pair_sublist_insertionSort (by rw [hcnt]; simp)
      (pair_sublist_range a b counts.length hab hb)

/-- C10: in both ranked and sampled modes every `promptUnique` word is placed
in the output before the requested length is checked (the prompt words form a
prefix of the token list), so a seed phrase with more unique tokens than the
requested length yields a longer-than-requested token list; `length` only
bounds the vocabulary-derived filler. -/
theorem C10_prompt_words_precede_length (words : List String) (counts : List ℚ)
    (pow : ℚ → ℚ → ℚ) (us : Nat → ℚ) (prompt : String) (length : Nat)
    (temperature : ℚ) :
    (∃ rest, (predictMostLikely words counts prompt length).tokens =
      uniqFirst (tokenize prompt) ++ rest) ∧
    (∃ rest, (predictSampleMode words counts pow us prompt length temperature).tokens =
      uniqFirst (tokenize prompt) ++ rest) ∧
    (length < (uniqFirst (tokenize prompt)).length →
      length < (predictMostLikely words counts prompt length).tokens.length ∧
      length <
        (predictSampleMode words counts pow us prompt length temperature).tokens.length) := by
  refine ⟨?_, ?_, ?_⟩
  · simp only [predictMostLikely, promptTokens1_tokenize]
    exact rankedFill_extends words (rankedIdxs counts) _ length
  · simp only [predictSampleMode, promptTokens1_tokenize]
    exact ⟨_, rfl⟩
  · intro hlen
    constructor
    · simp only [predictMostLikely, promptTokens1_tokenize]
      rw [rankedFill_of_le words (rankedIdxs counts) _ length (le_of_lt hlen)]
      exact hlen
    · simp only [predictSampleMode, promptTokens1_tokenize]
      have h0 : length - (uniqFirst (tokenize prompt)).length = 0 := by omega
      rw [h0]
      simp only [sampleIdxLoop, List.map_nil, List.append_nil, List.length_append]
      omega

/-- C10 witness: the seed phrase "alpha beta gamma" has three unique tokens,
which exceed the requested length 2 in both local modes. -/
theorem C10_witness :
    2 < (uniqFirst (tokenize "alpha beta gamma")).length ∧
    2 < (predictMostLikely ["x"] [1] "alpha beta gamma" 2).tokens.length ∧
    2 < (predictSampleMode ["x"] [1] intPow (fun _ => 0) "alpha beta gamma" 2 1).tokens.length := by
  have h := C10_prompt_words_precede_length ["x"] [1] intPow (fun _ => 0)
    "alpha beta gamma" 2 1
  have hlen : 2 < (uniqFirst (tokenize "alpha beta gamma")).length := by decide
  exact ⟨hlen, (h.2.2 hlen).1, (h.2.2 hlen).2⟩

/-- C9: in sampled mode the output can repeat a word: with vocabulary
`["doom", "fate"]`, seed phrase "doom fate", requested length 3, temperature 1
and a random stream that always draws 0, the output tokens are
`["doom", "fate", "fate"]` — only the seed token "doom" had its weight
zeroed, so the other prompt word "fate" is drawn again by the sampler. -/
theorem C9_sampled_duplicate :
    (predictSampleMode ["doom", "fate"] [5, 7] intPow (fun _ => 0) "doom fate" 3 1).tokens =
      ["doom", "fate", "fate"] ∧
    ¬ (predictSampleMode ["doom", "fate"] [5, 7] intPow
        (fun _ => 0) "doom fate" 3 1).tokens.Nodup := by
  have ht : tokenize "doom fate" = ["doom", "fate"] := by decide
  have hu : uniqFirst ["doom", "fate"] = ["doom", "fate"] := by decide
  have hp : promptTokens1 ["doom", "fate"] = ["doom", "fate"] := by decide
  have hs : promptSeedTokens ["doom", "fate"] = ["doom"] := by decide
  have hexp : (1 : ℚ) / jsMax (1 / 100000000) 1 = 1 := by norm_num [jsMax]
  have hw : [5, 7].map (fun c => intPow c 1) = ([5, 7] : List ℚ) := by
    norm_num [intPow]
  have hidx : List.findIdx? (fun w => w = "doom") ["doom", "fate"] = some 0 := by decide
  have hloop : sampleIdxLoop [0, 7] (fun _ => 0) 0 1 = [1] := by
    norm_num [sampleIdxLoop, cumulativeFromArray, cumAux, sampleIndexFromCum, bsearchGo,
      List.getD]
  have htoks : (predictSampleMode ["doom", "fate"] [5, 7] intPow
      (fun _ => 0) "doom fate" 3 1).tokens = ["doom", "fate", "fate"] := by
    simp only [predictSampleMode, ht, hu, hp, hs, hexp, hw, hidx, List.head?]
    norm_num [hloop]
  refine ⟨htoks, ?_⟩
  rw [htoks]
  decide

/-- C5: one run of the weighted sampler never emits the same index twice,
never emits an index whose weight is zero (every emitted index is in range
and had strictly positive weight), and stops immediately — returning the
(shorter) list, not an error — when the total remaining weight is
nonpositive. -/
theorem C5_sampler_invariants (modW : List ℚ) (us : Nat → ℚ) (step k : Nat)
    (hw : ∀ x ∈ modW, 0 ≤ x) (hus : ∀ n, 0 ≤ us n ∧ us n < 1) :
    (sampleIdxLoop modW us step k).Nodup ∧
    (∀ i ∈ sampleIdxLoop modW us step k, i < modW.length ∧ 0 < modW.getD i 0) ∧
    ((cumulativeFromArray modW).2 ≤ 0 → sampleIdxLoop modW us step k = []) := by
  have h := sampleIdxLoop_spec us hus k modW step hw
  exact ⟨h.1, h.2.1, fun h0 => h.2.2 (by simpa [cumulativeFromArray] using h0)⟩

/-- C5 witness: a concrete two-element weight array with an all-zero random
stream satisfies the sampler invariants. -/
theorem C5_witness :
    (sampleIdxLoop [1, 2] (fun _ => 0) 0 3).Nodup ∧
    (∀ i ∈ sampleIdxLoop [1, 2] (fun _ => 0) 0 3,
      i < ([1, 2] : List ℚ).length ∧ 0 < ([1, 2] : List ℚ).getD i 0) ∧
    ((cumulativeFromArray [1, 2]).2 ≤ 0 → sampleIdxLoop [1, 2] (fun _ => 0) 0 3 = []) := by
  refine C5_sampler_invariants [1, 2] (fun _ => 0) 0 3 ?_ ?_
  · intro x hx
    simp only [List.mem_cons, List.not_mem_nil, or_false] at hx
    rcases hx with rfl | rfl <;> norm_num
  · intro n
    norm_num

/-- C1: in delegated (`llm`) mode, if every attempt's generator output
contains a token outside the base vocabulary, `predict` makes exactly 3
attempts and then returns the sampled-mode result for the same seed phrase,
resolved length and temperature, carrying a non-empty warning; if the
generator errors on any attempt, it falls back immediately — no further
attempt is made — with a non-empty warning. -/
theorem C1_delegated_retries_and_fallback (words : List String) (counts : List ℚ)
    (pow : ℚ → ℚ → ℚ) (us : Nat → ℚ) (gen : Nat → Except String String)
    (prompt : String) (opts : Opts) (hw : words ≠ [])
    (hmode : opts.mode.getD "llm" = "llm") :
    ((∀ a, 1 ≤ a → a ≤ 3 → ∃ raw, gen a = Except.ok raw ∧
        ∃ t ∈ tokenize (llmText raw), t ∉ words) →
      llmAttemptsUsed words counts pow us gen prompt opts = 3 ∧
      predict words counts pow us gen prompt opts =
        Except.ok { predictSampleMode words counts pow us prompt (resolveLength opts) (resolveTemperature opts) with warning := some "LLM did not adhere to vocabulary constraints; returned fallback sampled prediction." } ∧
      "LLM did not adhere to vocabulary constraints; returned fallback sampled prediction." ≠ "") ∧
    (∀ a e, 1 ≤ a → a ≤ 3 →
      (∀ b, 1 ≤ b → b < a → ∃ raw, gen b = Except.ok raw ∧
        ∃ t ∈ tokenize (llmText raw), t ∉ words) →
      gen a = Except.error e →
      llmAttemptsUsed words counts pow us gen prompt opts = a ∧
      predict words counts pow us gen prompt opts =
        Except.ok { predictSampleMode words counts pow us prompt (resolveLength opts) (resolveTemperature opts) with warning := some ("LLM error: " ++ e) } ∧
      ("LLM error: " ++ e) ≠ "") := by
  have hpredict : predict words counts pow us gen prompt opts =
      Except.ok (llmGo words gen (predictSampleMode words counts pow us prompt
        (resolveLength opts) (resolveTemperature opts)) 1 3).1 := by
    rw [predict]
    rw [if_neg (by simpa using hw)]
    rw [hmode]
    rw [if_neg (by decide), if_neg (by decide)]
  constructor
  · intro hbad
    have hbad' : ∀ a, 1 ≤ a → a ≤ 3 →
        ∃ raw, gen a = Except.ok raw ∧ llmAttempt words raw = none := by
      intro a h1 h3
      obtain ⟨raw, hraw, t, ht, htw⟩ := hbad a h1 h3
      exact ⟨raw, hraw, llmAttempt_none_of_bad words raw t ht htw⟩
    have hfb := llmGo_all_bad words gen (predictSampleMode words counts pow us prompt
      (resolveLength opts) (resolveTemperature opts)) hbad'
    refine ⟨?_, ?_, by decide⟩
    · rw [llmAttemptsUsed, hfb]
    · rw [hpredict, hfb]
  · intro a e ha1 ha3 hrej he
    have hrej' : ∀ b, 1 ≤ b → b < a → ∃ raw, gen b = Except.ok raw ∧
        llmAttempt words raw = none := by
      intro b hb1 hba
      obtain ⟨raw, hraw, t, ht, htw⟩ := hrej b hb1 hba
      exact ⟨raw, hraw, llmAttempt_none_of_bad words raw t ht htw⟩
    have hfb := llmGo_error_at words gen (predictSampleMode words counts pow us prompt
      (resolveLength opts) (resolveTemperature opts)) a e ha1 ha3 hrej' he
    have hne : ("LLM error: " ++ e) ≠ "" := by
      intro h
      have h2 : ("LLM error: " ++ e).data = [] := by rw [h]
      rw [String.data_append] at h2
      rcases List.append_eq_nil.mp h2 with ⟨h3, _⟩
      exact absurd h3 (by decide)
    refine ⟨?_, ?_, hne⟩
    · rw [llmAttemptsUsed, hfb]
    · rw [hpredict, hfb]

/-- C1 witness: with the one-word vocabulary `["alpha"]`, explicit `llm`
mode, and a generator that always answers the out-of-vocabulary word "zeus",
exactly three attempts are made. -/
theorem C1_witness :
    llmAttemptsUsed ["alpha"] [1] intPow (fun _ => 0)
      (fun _ => Except.ok "zeus") "" { mode := some "llm" } = 3 := by
  have h := C1_delegated_retries_and_fallback ["alpha"] [1] intPow (fun _ => 0)
    (fun _ => Except.ok "zeus") "" { mode := some "llm" } (by decide) (by decide)
  refine (h.1 ?_).1
  intro a h1 h3
  exact ⟨"zeus", rfl, "zeus", by decide, by decide⟩

/-- C3: a delegated attempt is accepted iff the tokenization of the cleaned
generator response is non-empty and every token belongs to the base
vocabulary (not the merged prompt set); any token outside the base vocabulary
— in particular a prompt-only seed word echoed back — forces a retry or
fallback, and a delegated-path result without warning contains only
vocabulary words. -/
theorem C3_delegated_validation :
    (∀ (words : List String) (raw : String),
      (llmAttempt words raw).isSome = true ↔
        (tokenize (llmText raw) ≠ [] ∧ ∀ t ∈ tokenize (llmText raw), t ∈ words)) ∧
    (∀ (words : List String) (raw t : String), t ∈ tokenize (llmText raw) →
      t ∉ words → llmAttempt words raw = none) ∧
    (∀ (words : List String) (counts : List ℚ) (pow : ℚ → ℚ → ℚ) (us : Nat → ℚ)
      (gen : Nat → Except String String) (prompt : String) (opts : Opts)
      (r : GenResult), opts.mode.getD "llm" = "llm" →
      predict words counts pow us gen prompt opts = Except.ok r → r.warning = none →
      ∀ t ∈ r.tokens, t ∈ words) := by
  refine ⟨llmAttempt_isSome_iff, llmAttempt_none_of_bad, ?_⟩
  intro words counts pow us gen prompt opts r hmode hok hwarn
  rw [predict] at hok
  split at hok
  · exact absurd hok (by simp)
  · rw [hmode] at hok
    rw [if_neg (by decide), if_neg (by decide)] at hok
    injection hok with hok
    have := llmGo_warning_none words gen (predictSampleMode words counts pow us prompt
      (resolveLength opts) (resolveTemperature opts)) 3 1
      ((llmGo words gen (predictSampleMode words counts pow us prompt
        (resolveLength opts) (resolveTemperature opts)) 1 3).1)
      ((llmGo words gen (predictSampleMode words counts pow us prompt
        (resolveLength opts) (resolveTemperature opts)) 1 3).2) rfl
    rw [hok] at this
    exact this hwarn

/-- C3 witness: the response "Doom" is accepted against the vocabulary
`["doom"]`. -/
theorem C3_witness : (llmAttempt ["doom"] "Doom").isSome = true :=
  (C3_delegated_validation.1 ["doom"] "Doom").mpr (by decide)

/-- C6 counterexample: at temperature `1e-9` (which is positive) the code
clamps the exponent at `1 / 1e-8 = 1e8`, so the reshaped weight differs from
`weights[i] ^ (1 / temperature) = 2 ^ 1e9`. -/
theorem C6_counterexample :
    (0 : ℝ) < 1 / 1000000000 ∧
    (reshape [2] (1 / 1000000000)).getD 0 0 ≠
      (2 : ℝ) ^ ((1 : ℝ) / (1 / 1000000000)) := by
  refine ⟨by norm_num, ?_⟩
  have hm : max (1 / 100000000 : ℝ) (1 / 1000000000) = 1 / 100000000 :=
    max_eq_left (by norm_num)
  have h1 : (reshape [2] (1 / 1000000000)).getD 0 0 =
      (2 : ℝ) ^ (100000000 : ℝ) := by
    rw [reshape]
    simp only [List.map_cons, List.map_nil, List.getD_cons_zero, hm]
    congr 1
    norm_num
  have h2 : (1 : ℝ) / (1 / 1000000000) = (1000000000 : ℝ) := by norm_num
  rw [h1, h2]
  have h3 : (2 : ℝ) ^ (100000000 : ℝ) < (2 : ℝ) ^ (1000000000 : ℝ) := by
    rw [Real.rpow_lt_rpow_left_iff (by norm_num : (1 : ℝ) < 2)]
    norm_num
  exact ne_of_lt h3

/-- C6 (amended): for every temperature at least `1e-8` — the lower clamp in
`1 / Math.max(1e-8, temperature)` — the reshaped weights satisfy
`weights'[i] = weights[i] ^ (1 / temperature)` at every in-range index. -/
theorem C6_reshape_amended (weights : List ℝ) (t : ℝ)
    (ht : (1 / 100000000 : ℝ) ≤ t) (i : Nat) (hi : i < weights.length) :
    (reshape weights t).getD i 0 = (weights.getD i 0) ^ ((1 : ℝ) / t) := by
  rw [reshape]
  rw [List.getD_eq_getElem _ 0 (by simpa using hi), List.getD_eq_getElem _ 0 hi]
  rw [List.getElem_map]
  simp only [max_eq_right ht]

/-- C6 witness: at temperature 1 the reshaped weight is the weight to the
power `1/1`. -/
theorem C6_witness : (reshape [2] 1).getD 0 0 = (2 : ℝ) ^ ((1 : ℝ) / 1) :=
  C6_reshape_amended [2] 1 (by norm_num) 0 (by norm_num)

/-- C2 witness: a concrete call with the empty vocabulary fails with the
vocabulary-unavailable error. -/
theorem C2_witness :
    predict [] [] intPow (fun _ => 0) (fun _ => Except.ok "x") "hello" {} =
      Except.error "Oracle: dictionary not loaded or empty" :=
  (C2_empty_vocab_error [] intPow (fun _ => 0) (fun _ => Except.ok "x") "hello" {}).1

/-- C4 witness: the spec's concrete ranked-mode example. -/
theorem C4_witness :
    predictMostLikely ["fate", "doom", "glory"] [20, 15, 12] "tell of doom" 4 =
      { text := "Tell of doom fate.", tokens := ["tell", "of", "doom", "fate"] } :=
  C4_ranked_mode.1

/-- C7 witness: the dictionary built from a concrete corpus has pairwise
distinct words. -/
theorem C7_witness :
    ((dictEntries "doom of war and doom of fate").map Prod.fst).Nodup :=
  (C7_dictionary_ordering "doom of war and doom of fate").2

/-- C9 witness: the concrete duplicate-producing sampled run. -/
theorem C9_witness :
    (predictSampleMode ["doom", "fate"] [5, 7] intPow
      (fun _ => 0) "doom fate" 3 1).tokens = ["doom", "fate", "fate"] :=
  C9_sampled_duplicate.1

end Mousa
